import Mathlib

/-!
Verification of the partner-onboarding RAG pipeline (`ingest.py`, `rag.py`).

Text is modelled as `List Char`.  Python `int` is modelled as `Int`.
File reads, the vector store and the HTTP generation service are external
effects; they are modelled as explicit function parameters (oracles), so the
pure dataflow of the source is embedded faithfully while the effectful
boundary stays abstract.
-/

namespace Rag

/-- Python whitespace test used by `str.strip()` (restricted to the ASCII
whitespace characters, the decoding universe of this model). -/
def pyWS (c : Char) : Bool :=
  c = ' ' || c = '\t' || c = '\n' || c = '\r' || c = '\x0b' || c = '\x0c'

/-- Python `s.strip()`: drop leading and trailing whitespace. -/
def pyStrip (l : List Char) : List Char :=
  ((l.dropWhile pyWS).reverse.dropWhile pyWS).reverse

/-- Effective stop index of a Python slice `s[_ : j]` on a string of length
`n`: a negative `j` counts from the end (clamped at 0), a non-negative `j`
is clamped at `n`. -/
def pySliceStop (n : Nat) (j : Int) : Nat :=
  if j < 0 then ((n : Int) + j).toNat else min j.toNat n

/-- Python slice `s[i : j]` for a non-negative start `i` (the only case the
source reaches: its loop index starts at 0 and only grows). -/
def pySlice (text : List Char) (i : Nat) (j : Int) : List Char :=
  (text.take (pySliceStop text.length j)).drop i

/-- The loop increment of `chunk_text` (`ingest.py` line 36):
`max(1, size - overlap)`. -/
def chunkStep (size overlap : Int) : Nat :=
  (max 1 (size - overlap)).toNat

/-- The `while i < n` loop of `chunk_text` (`ingest.py` lines 29-37), with an
explicit iteration budget `fuel`; `chunkRun_eq_some` below shows that
`text.length` iterations always reach the loop exit, so `chunk_text` uses
that budget. -/
def chunkLoop (text : List Char) (size overlap : Int) : Nat → Nat → List (List Char)
  | 0, _ => []
  | fuel + 1, i =>
    if i < text.length then
      if (pyStrip (pySlice text i ((i : Int) + size))).isEmpty then
        chunkLoop text size overlap fuel (i + chunkStep size overlap)
      else
        pySlice text i ((i : Int) + size) :: chunkLoop text size overlap fuel (i + chunkStep size overlap)
    else []

/-- Constant `CHUNK_SIZE` from `ingest.py`. -/
def CHUNK_SIZE : Int := 800

/-- Constant `CHUNK_OVERLAP` from `ingest.py`. -/
def CHUNK_OVERLAP : Int := 120

/-- Function `chunk_text` from `ingest.py` lines 24-37: greedy fixed-size chunking
with overlap, skipping chunks that are empty after stripping whitespace. -/
def chunk_text (text : List Char) (size : Int := CHUNK_SIZE)
    (overlap : Int := CHUNK_OVERLAP) : List (List Char) :=
  chunkLoop text size overlap text.length 0

/-- The same loop instrumented to witness termination: `none` means the
iteration budget ran out while `i < n` still held, `some` means the loop
genuinely reached its exit condition. -/
def chunkRun (text : List Char) (size overlap : Int) : Nat → Nat → Option (List (List Char))
  | 0, i => if i < text.length then none else some []
  | fuel + 1, i =>
    if i < text.length then
      (chunkRun text size overlap fuel (i + chunkStep size overlap)).map
        (fun rest =>
          if (pyStrip (pySlice text i ((i : Int) + size))).isEmpty then rest
          else pySlice text i ((i : Int) + size) :: rest)
    else some []

/-- The same loop recording the starting offset of each emitted chunk
instead of its text. -/
def chunkOffsetsLoop (text : List Char) (size overlap : Int) : Nat → Nat → List Nat
  | 0, _ => []
  | fuel + 1, i =>
    if i < text.length then
      if (pyStrip (pySlice text i ((i : Int) + size))).isEmpty then
        chunkOffsetsLoop text size overlap fuel (i + chunkStep size overlap)
      else
        i :: chunkOffsetsLoop text size overlap fuel (i + chunkStep size overlap)
    else []

/-- Starting offsets of the chunks `chunk_text` emits. -/
def chunkOffsets (text : List Char) (size overlap : Int) : List Nat :=
  chunkOffsetsLoop text size overlap text.length 0

-- Basic facts about the step and the loops.

theorem chunkStep_pos (size overlap : Int) : 1 ≤ chunkStep size overlap := by
  have h := le_max_left 1 (size - overlap)
  unfold chunkStep
  omega

theorem chunkLoop_of_le (text : List Char) (size overlap : Int) (fuel i : Nat)
    (h : text.length ≤ i) : chunkLoop text size overlap fuel i = [] := by
  cases fuel <;> simp [chunkLoop, Nat.not_lt.2 h]

theorem chunkLoop_congr (text : List Char) (size overlap : Int) :
    ∀ f₁ f₂ i, text.length - i ≤ f₁ → text.length - i ≤ f₂ →
      chunkLoop text size overlap f₁ i = chunkLoop text size overlap f₂ i := by
  intro f₁
  induction f₁ with
  | zero =>
    intro f₂ i h₁ _
    rw [chunkLoop, chunkLoop_of_le text size overlap f₂ i (by omega)]
  | succ f ih =>
    intro f₂ i h₁ h₂
    by_cases hi : i < text.length
    · obtain ⟨f', rfl⟩ : ∃ f', f₂ = f' + 1 := ⟨f₂ - 1, by omega⟩
      have hstep := chunkStep_pos size overlap
      have hrec := ih f' (i + chunkStep size overlap) (by omega) (by omega)
      simp only [chunkLoop, if_pos hi, hrec]
    · rw [chunkLoop_of_le text size overlap _ i (by omega),
        chunkLoop_of_le text size overlap f₂ i (by omega)]

-- sanity checks on small inputs
example : chunk_text "aa".data 2 1 = ["aa".data, "a".data] := by decide
example : chunk_text "  ".data 2 1 = [] := by decide
example : chunk_text "a b".data 2 1 = ["a ".data, " b".data, "b".data] := by decide

theorem chunkRun_eq_some (text : List Char) (size overlap : Int) :
    ∀ fuel i, text.length - i ≤ fuel →
      chunkRun text size overlap fuel i = some (chunkLoop text size overlap fuel i) := by
  intro fuel
  induction fuel with
  | zero =>
    intro i h
    simp [chunkRun, chunkLoop, Nat.not_lt.2 (show text.length ≤ i by omega)]
  | succ f ih =>
    intro i h
    by_cases hi : i < text.length
    · have hstep := chunkStep_pos size overlap
      have hrec := ih (i + chunkStep size overlap) (by omega)
      simp only [chunkRun, chunkLoop, if_pos hi, hrec, Option.map_some]
      split <;> rfl
    · simp [chunkRun, chunkLoop, hi]

/-- The slice `text[i : i + size]` taken by the loop equals "up to `size`
characters starting at offset `i`" whenever `size` is non-negative. -/
theorem pySlice_eq_drop_take (text : List Char) (i : Nat) (size : Int)
    (hs : 0 ≤ size) :
    pySlice text i ((i : Int) + size) = (text.drop i).take size.toNat := by
  have hnn : ¬ ((i : Int) + size < 0) := by omega
  have htn : ((i : Int) + size).toNat = i + size.toNat := by omega
  rw [pySlice, pySliceStop, if_neg hnn, htn, List.drop_take, List.take_eq_take]
  simp only [List.length_drop]
  omega

/-- The reference chunking algorithm, stated exactly as the specification
words it: start at offset 0; take the slice of up to `size` characters;
advance the offset by `max(1, size - overlap)`; repeat while the offset is
less than the length of the text; keep a slice iff it is non-empty after
trimming whitespace. -/
def chunkRefLoop (text : List Char) (size overlap : Int) : Nat → Nat → List (List Char)
  | 0, _ => []
  | fuel + 1, i =>
    if i < text.length then
      if (pyStrip ((text.drop i).take size.toNat)).isEmpty then
        chunkRefLoop text size overlap fuel (i + chunkStep size overlap)
      else
        (text.drop i).take size.toNat :: chunkRefLoop text size overlap fuel (i + chunkStep size overlap)
    else []

/-- Entry point of the reference algorithm of claim C1. -/
def chunkRefAlg (text : List Char) (size overlap : Int) : List (List Char) :=
  chunkRefLoop text size overlap text.length 0

theorem chunkLoop_eq_refLoop (text : List Char) (size overlap : Int)
    (hs : 0 ≤ size) :
    ∀ fuel i, chunkLoop text size overlap fuel i = chunkRefLoop text size overlap fuel i := by
  intro fuel
  induction fuel with
  | zero => intro i; rfl
  | succ f ih =>
    intro i
    simp only [chunkLoop, chunkRefLoop, pySlice_eq_drop_take text i size hs, ih]

/-- C9: `chunk_text` terminates for every input, including `size - overlap ≤ 0`:
because the step is forced to at least 1, the loop reaches the end of the
text within `text.length` iterations (`chunkRun` returns `some`, never the
budget-exhausted `none`), for all integer parameters. -/
theorem chunk_text_terminates (text : List Char) (size overlap : Int) :
    chunkRun text size overlap text.length 0 = some (chunk_text text size overlap) := by
  exact chunkRun_eq_some text size overlap text.length 0 (by omega)

/-- C1: for positive `size` and `overlap` with `overlap < size`, `chunk_text`
returns exactly the sequence produced by the reference sliding-window
algorithm of the specification. -/
theorem chunk_text_eq_refAlg (text : List Char) (size overlap : Int)
    (hs : 0 < size) (_ho : 0 < overlap) (_hov : overlap < size) :
    chunk_text text size overlap = chunkRefAlg text size overlap := by
  exact chunkLoop_eq_refLoop text size overlap (by omega) text.length 0

/-- Witness for C1 at a concrete input. -/
theorem chunk_text_eq_refAlg_witness :
    (0 : Int) < 2 ∧ (0 : Int) < 1 ∧ (1 : Int) < 2 ∧
      chunk_text "ab".data 2 1 = chunkRefAlg "ab".data 2 1 :=
  ⟨by decide, by decide, by decide,
    chunk_text_eq_refAlg "ab".data 2 1 (by decide) (by decide) (by decide)⟩

-- Properties feeding claim C2.

theorem pyStrip_isEmpty_iff (l : List Char) :
    (pyStrip l).isEmpty = true ↔ ∀ c ∈ l, pyWS c = true := by
  rw [pyStrip, List.isEmpty_iff, List.reverse_eq_nil_iff, List.dropWhile_eq_nil_iff]
  constructor
  · intro h c hc
    have hc' : c ∈ List.takeWhile pyWS l ++ List.dropWhile pyWS l := by
      rw [List.takeWhile_append_dropWhile]; exact hc
    rcases List.mem_append.1 hc' with h1 | h1
    · exact List.mem_takeWhile_imp h1
    · exact h c (List.mem_reverse.2 h1)
  · intro h c hc
    exact h c ((List.dropWhile_sublist pyWS).subset (List.mem_reverse.1 hc))

theorem chunkLoop_eq_offsets_map (text : List Char) (size overlap : Int) :
    ∀ fuel i, chunkLoop text size overlap fuel i
      = (chunkOffsetsLoop text size overlap fuel i).map
          (fun j => pySlice text j ((j : Int) + size)) := by
  intro fuel
  induction fuel with
  | zero => intro i; rfl
  | succ f ih =>
    intro i
    simp only [chunkLoop, chunkOffsetsLoop, ih]
    split
    · split <;> simp
    · rfl

theorem chunkOffsetsLoop_le (text : List Char) (size overlap : Int) :
    ∀ fuel i j, j ∈ chunkOffsetsLoop text size overlap fuel i → i ≤ j := by
  intro fuel
  induction fuel with
  | zero => intro i j h; simp [chunkOffsetsLoop] at h
  | succ f ih =>
    intro i j h
    have hstep := chunkStep_pos size overlap
    rw [chunkOffsetsLoop] at h
    by_cases hi : i < text.length
    · rw [if_pos hi] at h
      split at h
      · exact le_trans (by omega) (ih _ j h)
      · rcases List.mem_cons.1 h with rfl | h
        · exact le_refl j
        · exact le_trans (by omega) (ih _ j h)
    · rw [if_neg hi] at h; simp at h

theorem chunkOffsetsLoop_pairwise (text : List Char) (size overlap : Int) :
    ∀ fuel i, (chunkOffsetsLoop text size overlap fuel i).Pairwise (· < ·) := by
  intro fuel
  induction fuel with
  | zero => intro i; simp [chunkOffsetsLoop]
  | succ f ih =>
    intro i
    have hstep := chunkStep_pos size overlap
    rw [chunkOffsetsLoop]
    by_cases hi : i < text.length
    · rw [if_pos hi]
      split
      · exact ih _
      · refine List.pairwise_cons.2 ⟨fun j hj => ?_, ih _⟩
        have := chunkOffsetsLoop_le text size overlap f (i + chunkStep size overlap) j hj
        omega
    · rw [if_neg hi]; simp

theorem mem_pySlice_of_pos (text : List Char) (size : Int) (hs : 0 ≤ size)
    (i k : Nat) (hk : k < text.length) (hik : i ≤ k) (hup : k < i + size.toNat) :
    text.get ⟨k, hk⟩ ∈ pySlice text i ((i : Int) + size) := by
  rw [pySlice_eq_drop_take text i size hs]
  have hlen : k - i < ((text.drop i).take size.toNat).length := by
    rw [List.length_take, List.length_drop]
    omega
  have hgd : k - i < (text.drop i).length := by rw [List.length_drop]; omega
  have : ((text.drop i).take size.toNat)[k - i] = text.get ⟨k, hk⟩ := by
    rw [List.getElem_take, List.getElem_drop]
    simp only [List.get_eq_getElem]
    congr 1
    omega
  exact this ▸ List.getElem_mem hlen

theorem chunkLoop_covers (text : List Char) (size overlap : Int) (hs : 0 ≤ size)
    (hstep : chunkStep size overlap ≤ size.toNat) :
    ∀ fuel i k (hk : k < text.length), text.length - i ≤ fuel → i ≤ k →
      pyWS (text.get ⟨k, hk⟩) = false →
      ∃ c ∈ chunkLoop text size overlap fuel i, text.get ⟨k, hk⟩ ∈ c := by
  intro fuel
  induction fuel with
  | zero => intro i k hk hf hik _; omega
  | succ f ih =>
    intro i k hk hf hik hws
    have hpos := chunkStep_pos size overlap
    have hi : i < text.length := by omega
    by_cases hup : k < i + size.toNat
    · have hmem := mem_pySlice_of_pos text size hs i k hk hik hup
      have hne : (pyStrip (pySlice text i ((i : Int) + size))).isEmpty = false := by
        rw [Bool.eq_false_iff]
        intro hemp
        have := (pyStrip_isEmpty_iff _).1 hemp _ hmem
        rw [hws] at this
        exact Bool.false_ne_true this
      rw [chunkLoop, if_pos hi, hne]
      exact ⟨pySlice text i ((i : Int) + size), List.mem_cons_self _ _, hmem⟩
    · have hik' : i + chunkStep size overlap ≤ k := by omega
      obtain ⟨c, hc, hmem⟩ := ih (i + chunkStep size overlap) k hk (by omega) hik' hws
      rw [chunkLoop, if_pos hi]
      split
      · exact ⟨c, hc, hmem⟩
      · exact ⟨c, List.mem_cons_of_mem _ hc, hmem⟩

theorem chunkLoop_length_le (text : List Char) (size overlap : Int) (hs : 0 ≤ size) :
    ∀ fuel i c, c ∈ chunkLoop text size overlap fuel i → c.length ≤ size.toNat := by
  intro fuel
  induction fuel with
  | zero => intro i c h; simp [chunkLoop] at h
  | succ f ih =>
    intro i c h
    rw [chunkLoop] at h
    by_cases hi : i < text.length
    · rw [if_pos hi] at h
      split at h
      · exact ih _ c h
      · rcases List.mem_cons.1 h with rfl | h
        · rw [pySlice_eq_drop_take text i size hs, List.length_take]
          omega
        · exact ih _ c h
    · rw [if_neg hi] at h; simp at h

/-- C2: for positive `size` and `overlap` with `overlap < size`: the chunks
are exactly the slices at the recorded starting offsets, those offsets are
strictly increasing, every non-whitespace character of the text occurs in at
least one returned chunk, and no chunk is longer than `size`. -/
theorem chunk_text_core_properties (text : List Char) (size overlap : Int)
    (hs : 0 < size) (ho : 0 < overlap) (hov : overlap < size) :
    chunk_text text size overlap
        = (chunkOffsets text size overlap).map (fun j => pySlice text j ((j : Int) + size))
      ∧ (chunkOffsets text size overlap).Pairwise (· < ·)
      ∧ (∀ k (hk : k < text.length), pyWS (text.get ⟨k, hk⟩) = false →
          ∃ c ∈ chunk_text text size overlap, text.get ⟨k, hk⟩ ∈ c)
      ∧ (∀ c ∈ chunk_text text size overlap, (c.length : Int) ≤ size) := by
  have hstep : chunkStep size overlap ≤ size.toNat := by
    unfold chunkStep
    omega
  refine ⟨chunkLoop_eq_offsets_map text size overlap text.length 0,
    chunkOffsetsLoop_pairwise text size overlap text.length 0,
    fun k hk hws => ?_, fun c hc => ?_⟩
  · exact chunkLoop_covers text size overlap (by omega) hstep text.length 0 k hk
      (by omega) (by omega) hws
  · have := chunkLoop_length_le text size overlap (by omega) text.length 0 c hc
    omega

/-- Witness for C2 at a concrete input. -/
theorem chunk_text_core_properties_witness :
    (0 : Int) < 2 ∧ (0 : Int) < 1 ∧ (1 : Int) < 2 ∧
      (chunk_text "a b".data 2 1
          = (chunkOffsets "a b".data 2 1).map
              (fun j => pySlice "a b".data j ((j : Int) + 2))
        ∧ (chunkOffsets "a b".data 2 1).Pairwise (· < ·)
        ∧ (∀ k (hk : k < "a b".data.length), pyWS ("a b".data.get ⟨k, hk⟩) = false →
            ∃ c ∈ chunk_text "a b".data 2 1, "a b".data.get ⟨k, hk⟩ ∈ c)
        ∧ (∀ c ∈ chunk_text "a b".data 2 1, (c.length : Int) ≤ 2)) :=
  ⟨by decide, by decide, by decide,
    chunk_text_core_properties "a b".data 2 1 (by decide) (by decide) (by decide)⟩

-- Chunk counts on fully non-whitespace text (claim C3).

theorem ceil_step_succ (m step : Nat) (hstep : 1 ≤ step) (hm : 1 ≤ m) :
    (m + step - 1) / step = 1 + (m - step + step - 1) / step := by
  rcases le_or_lt step m with h | h
  · have heq : m + step - 1 = (m - step + step - 1) + step := by omega
    rw [heq, Nat.add_div_right _ (by omega), Nat.add_comm]
  · have h0 : m - step = 0 := by omega
    have hr : (step - 1) / step = 0 := Nat.div_eq_of_lt (by omega)
    have hl : (m + step - 1) / step = 1 :=
      Nat.div_eq_of_lt_le (by omega) (by omega)
    rw [h0, Nat.zero_add, hl, hr]

theorem chunkLoop_length_all_nonws (text : List Char) (size overlap : Int)
    (hs : 0 < size) (hall : ∀ c ∈ text, pyWS c = false) :
    ∀ fuel i, text.length - i ≤ fuel →
      (chunkLoop text size overlap fuel i).length
        = (text.length - i + chunkStep size overlap - 1) / chunkStep size overlap := by
  have hstep := chunkStep_pos size overlap
  intro fuel
  induction fuel with
  | zero =>
    intro i h
    have h0 : text.length - i = 0 := by omega
    rw [chunkLoop, h0, Nat.zero_add, List.length_nil,
      Nat.div_eq_of_lt (by omega)]
  | succ f ih =>
    intro i h
    by_cases hi : i < text.length
    · have hch : text.get ⟨i, hi⟩ ∈ pySlice text i ((i : Int) + size) :=
        mem_pySlice_of_pos text size (by omega) i i hi (le_refl i) (by omega)
      have hne : (pyStrip (pySlice text i ((i : Int) + size))).isEmpty = false := by
        rw [Bool.eq_false_iff]
        intro hemp
        have := (pyStrip_isEmpty_iff _).1 hemp _ hch
        rw [hall _ (text.get_mem i hi)] at this
        exact Bool.false_ne_true this
      simp only [chunkLoop, if_pos hi, hne, Bool.false_eq_true, if_false,
        List.length_cons]
      rw [ih (i + chunkStep size overlap) (by omega),
        ceil_step_succ (text.length - i) (chunkStep size overlap) hstep (by omega),
        Nat.add_comm 1]
      congr 2
      omega
    · rw [chunkLoop_of_le text size overlap (f + 1) i (by omega), List.length_nil]
      have h0 : text.length - i = 0 := by omega
      rw [h0, Nat.zero_add, Nat.div_eq_of_lt (by omega)]

set_option maxRecDepth 10000 in
/-- Counterexample to C3: with the default parameters `size = 800` and
`overlap = 120`, a fully non-whitespace text of exactly 800 characters
yields 2 chunks (not 1), and one of exactly `2*800 - 120 = 1480` characters
yields 3 chunks (not 2): the trailing overlap windows are non-empty after
stripping, so they are kept. -/
theorem chunk_text_count_counterexample :
    (chunk_text (List.replicate 800 'a') 800 120).length ≠ 1
      ∧ (chunk_text (List.replicate 1480 'a') 800 120).length ≠ 2 := by
  constructor <;> decide

/-- C3 (amended): for positive `size` and `overlap` with `overlap < size`,
on a fully non-whitespace text the number of chunks is
`⌈length / max(1, size - overlap)⌉`; a text of exactly `size` characters
therefore yields `⌈size/(size-overlap)⌉` chunks (2 at the defaults, not 1)
and a text of `2*size - overlap` characters yields one more (3 at the
defaults, not 2).  A single chunk results only when the trailing windows
are whitespace-only. -/
theorem chunk_text_count_all_nonws (text : List Char) (size overlap : Int)
    (hs : 0 < size) (_ho : 0 < overlap) (_hov : overlap < size)
    (hall : ∀ c ∈ text, pyWS c = false) :
    (chunk_text text size overlap).length
      = (text.length + chunkStep size overlap - 1) / chunkStep size overlap := by
  have := chunkLoop_length_all_nonws text size overlap hs hall text.length 0 (by omega)
  simpa using this

/-- Witness for C3 (amended) at a concrete input. -/
theorem chunk_text_count_all_nonws_witness :
    (0 : Int) < 2 ∧ (0 : Int) < 1 ∧ (1 : Int) < 2 ∧
      (∀ c ∈ List.replicate 3 'a', pyWS c = false) ∧
      (chunk_text (List.replicate 3 'a') 2 1).length
        = ((List.replicate 3 'a').length + chunkStep 2 1 - 1) / chunkStep 2 1 :=
  ⟨by decide, by decide, by decide, by decide,
    chunk_text_count_all_nonws (List.replicate 3 'a') 2 1 (by decide) (by decide)
      (by decide) (by decide)⟩

-- `read_txt` normalization (claim C8).

/-- The pure normalization performed by `read_txt` (`ingest.py` lines 40-45)
on the decoded file text (the file read and best-effort UTF-8 decoding are
the external effect): `"\n".join(line.strip() for line in
txt.replace("\r", "").split("\n"))`. -/
def read_txt (txt : List Char) : List Char :=
  ['\n'].intercalate (((txt.filter (fun c => c != '\r')).splitOn '\n').map pyStrip)

/-- The normalization as claim C8 words it: strip only trailing whitespace
from every line, leaving leading whitespace unchanged. -/
def stripTrailing (l : List Char) : List Char :=
  (l.reverse.dropWhile pyWS).reverse

/-- Reference normalization following the claim words, for comparison. -/
def read_txt_claimed (txt : List Char) : List Char :=
  ['\n'].intercalate (((txt.filter (fun c => c != '\r')).splitOn '\n').map stripTrailing)

theorem not_mem_of_mem_splitOnP (p : Char → Bool) :
    ∀ (xs : List Char) (l : List Char), l ∈ xs.splitOnP p → ∀ c ∈ l, p c = false := by
  intro xs
  induction xs with
  | nil =>
    intro l hl c hc
    simp [List.splitOnP_nil] at hl
    simp [hl] at hc
  | cons x xs ih =>
    intro l hl c hc
    rw [List.splitOnP_cons] at hl
    by_cases hp : p x
    · rw [if_pos hp] at hl
      rcases List.mem_cons.1 hl with rfl | hl
      · simp at hc
      · exact ih l hl c hc
    · rw [if_neg hp] at hl
      rcases hsplit : xs.splitOnP p with _ | ⟨h, t⟩
      · exact absurd hsplit (List.splitOnP_ne_nil p xs)
      · rw [hsplit, List.modifyHead_cons] at hl
        rcases List.mem_cons.1 hl with rfl | hl
        · rcases List.mem_cons.1 hc with rfl | hc
          · exact Bool.eq_false_iff.2 hp
          · exact ih h (hsplit ▸ List.mem_cons_self h t) c hc
        · exact ih l (hsplit ▸ List.mem_cons_of_mem h hl) c hc

theorem mem_of_mem_splitOnP (p : Char → Bool) :
    ∀ (xs : List Char) (l : List Char), l ∈ xs.splitOnP p → ∀ c ∈ l, c ∈ xs := by
  intro xs
  induction xs with
  | nil =>
    intro l hl c hc
    simp [List.splitOnP_nil] at hl
    simp [hl] at hc
  | cons x xs ih =>
    intro l hl c hc
    rw [List.splitOnP_cons] at hl
    by_cases hp : p x
    · rw [if_pos hp] at hl
      rcases List.mem_cons.1 hl with rfl | hl
      · simp at hc
      · exact List.mem_cons_of_mem x (ih l hl c hc)
    · rw [if_neg hp] at hl
      rcases hsplit : xs.splitOnP p with _ | ⟨h, t⟩
      · exact absurd hsplit (List.splitOnP_ne_nil p xs)
      · rw [hsplit, List.modifyHead_cons] at hl
        rcases List.mem_cons.1 hl with rfl | hl
        · rcases List.mem_cons.1 hc with rfl | hc
          · exact List.mem_cons_self c xs
          · exact List.mem_cons_of_mem x (ih h (hsplit ▸ List.mem_cons_self h t) c hc)
        · exact List.mem_cons_of_mem x (ih l (hsplit ▸ List.mem_cons_of_mem h hl) c hc)

theorem mem_of_mem_pyStrip (l : List Char) (c : Char) (hc : c ∈ pyStrip l) : c ∈ l := by
  rw [pyStrip, List.mem_reverse] at hc
  have hc2 := (List.dropWhile_sublist pyWS).subset hc
  rw [List.mem_reverse] at hc2
  exact (List.dropWhile_sublist pyWS).subset hc2

/-- Stripping removes exactly a whitespace prefix and a whitespace suffix. -/
theorem pyStrip_decomposition (l : List Char) :
    ∃ pre suf, l = pre ++ pyStrip l ++ suf ∧ pre.all pyWS ∧ suf.all pyWS := by
  refine ⟨List.takeWhile pyWS l,
    (List.takeWhile pyWS (List.dropWhile pyWS l).reverse).reverse, ?_, ?_, ?_⟩
  · have h1 := (List.takeWhile_append_dropWhile pyWS l).symm
    have h2 := (List.takeWhile_append_dropWhile pyWS (List.dropWhile pyWS l).reverse).symm
    have h3 : List.dropWhile pyWS l
        = pyStrip l ++ (List.takeWhile pyWS (List.dropWhile pyWS l).reverse).reverse := by
      have := congrArg List.reverse h2
      rw [List.reverse_reverse, List.reverse_append] at this
      calc List.dropWhile pyWS l
          = (List.dropWhile pyWS (List.dropWhile pyWS l).reverse).reverse
            ++ (List.takeWhile pyWS (List.dropWhile pyWS l).reverse).reverse := this
        _ = pyStrip l ++ (List.takeWhile pyWS (List.dropWhile pyWS l).reverse).reverse := rfl
    rw [List.append_assoc, ← h3]
    exact h1
  · rw [List.all_eq_true]
    exact fun c hc => List.mem_takeWhile_imp hc
  · rw [List.all_eq_true]
    intro c hc
    rw [List.mem_reverse] at hc
    exact List.mem_takeWhile_imp hc

theorem mem_of_mem_intercalate (sep : List Char) :
    ∀ (ls : List (List Char)) (c : Char), c ∈ sep.intercalate ls →
      c ∈ sep ∨ ∃ l ∈ ls, c ∈ l := by
  intro ls
  induction ls with
  | nil =>
    intro c hc
    simp [List.intercalate] at hc
  | cons x t ih =>
    intro c hc
    rcases t with _ | ⟨y, t'⟩
    · simp [List.intercalate] at hc
      exact Or.inr ⟨x, List.mem_singleton_self x, hc⟩
    · rw [List.intercalate, List.intersperse_cons_cons, List.flatten_cons,
        List.flatten_cons] at hc
      rcases List.mem_append.1 hc with hc | hc
      · exact Or.inr ⟨x, List.mem_cons_self _ _, hc⟩
      · rcases List.mem_append.1 hc with hc | hc
        · exact Or.inl hc
        · rcases ih c (by rw [List.intercalate]; exact hc) with h | ⟨l, hl, hcl⟩
          · exact Or.inl h
          · exact Or.inr ⟨l, List.mem_cons_of_mem x hl, hcl⟩

/-- C8 (amended): `read_txt` normalizes the decoded text by removing every
carriage return and stripping both leading and trailing whitespace from
every line; each line is otherwise unchanged (strip removes exactly a
whitespace prefix and suffix), and no carriage return survives. -/
theorem read_txt_normalization (txt : List Char) :
    (read_txt txt).splitOn '\n'
        = ((txt.filter (fun c => c != '\r')).splitOn '\n').map pyStrip
      ∧ (∀ l, ∃ pre suf, l = pre ++ pyStrip l ++ suf ∧ pre.all pyWS ∧ suf.all pyWS)
      ∧ '\r' ∉ read_txt txt := by
  refine ⟨?_, pyStrip_decomposition, ?_⟩
  · rw [read_txt]
    apply List.splitOn_intercalate
    · intro l hl hnl
      rcases List.mem_map.1 hl with ⟨l₀, hl₀, rfl⟩
      have hmem := mem_of_mem_pyStrip l₀ '\n' hnl
      have := not_mem_of_mem_splitOnP (· == '\n') _ l₀ hl₀ '\n' hmem
      simp at this
    · intro hmap
      rw [List.map_eq_nil_iff] at hmap
      exact List.splitOnP_ne_nil _ _ hmap
  · intro hr
    rcases mem_of_mem_intercalate ['\n'] _ '\r' hr with h | ⟨l, hl, hcl⟩
    · simp at h
    · rcases List.mem_map.1 hl with ⟨l₀, hl₀, rfl⟩
      have hmem := mem_of_mem_pyStrip l₀ '\r' hcl
      have hin := mem_of_mem_splitOnP (· == '\n') _ l₀ hl₀ '\r' hmem
      have := List.of_mem_filter hin
      simp at this

/-- Counterexample to C8 as stated: `read_txt` does not leave the
leading whitespace unchanged — the source calls `line.strip()`, which also
removes leading whitespace, so on the input `"  a"` the code and the
claimed trailing-only normalization disagree. -/
theorem read_txt_counterexample :
    read_txt "  a".data ≠ read_txt_claimed "  a".data := by decide

-- `index_files` accumulation (claims C4 and C10).

/-- Decimal digit character, `chr(48 + n)`. -/
def digitChar (n : Nat) : Char := Char.ofNat (48 + n)

/-- Decimal rendering of a natural number with an explicit recursion budget
(`n + 1` always suffices since `n / 10 < n`). -/
def natDigitsRec (fuel : Nat) (n : Nat) : List Char :=
  match fuel with
  | 0 => []
  | fuel + 1 =>
    if n < 10 then [digitChar n]
    else natDigitsRec fuel (n / 10) ++ [digitChar (n % 10)]

/-- Decimal rendering of a natural number, as Python renders the chunk index
`j` inside the id f-string of `ingest.py` line 118. -/
def natDigits (n : Nat) : List Char := natDigitsRec (n + 1) n

/-- Python `os.path.basename`: the path component after the last `/`. -/
def basename (p : List Char) : List Char := (p.splitOn '/').getLastD []

/-- The id built at `ingest.py` line 118: the basename of the path, a dash,
and the decimal chunk index. -/
def chunkId (fpath : List Char) (j : Nat) : List Char :=
  basename fpath ++ '-' :: natDigits j

/-- Metadata dict with keys `source`, `path` and `chunk`, built at
`ingest.py` line 117. -/
structure Meta where
  source : List Char
  path : List Char
  chunk : Nat
deriving DecidableEq

/-- The three parallel accumulators `texts, metadatas, ids` of `index_files`. -/
structure IndexAcc where
  texts : List (List Char)
  metadatas : List Meta
  ids : List (List Char)
deriving DecidableEq

/-- The accumulation loop of `index_files` (`ingest.py` lines 106-118): for
each file, read it (`read_pdf`/`read_txt` dispatch and decoding are the
external oracle `readF`; a read failure means the file is skipped), chunk
with the default parameters, and append one `(text, metadata, id)` triple
per chunk. -/
def indexAccOf : List (List Char) → (List Char → Except Unit (List Char)) → IndexAcc
  | [], _ => ⟨[], [], []⟩
  | fpath :: fs, readF =>
    match readF fpath with
    | .error _ => indexAccOf fs readF
    | .ok raw =>
      ⟨(chunk_text raw).enum.map Prod.snd ++ (indexAccOf fs readF).texts,
       (chunk_text raw).enum.map (fun e => ⟨basename fpath, fpath, e.1⟩)
         ++ (indexAccOf fs readF).metadatas,
       (chunk_text raw).enum.map (fun e => chunkId fpath e.1)
         ++ (indexAccOf fs readF).ids⟩

/-- Return value of `index_files` (`ingest.py` line 122):
`(len(files), len(texts))`. -/
def index_files (files : List (List Char))
    (readF : List Char → Except Unit (List Char)) : Nat × Nat :=
  (files.length, (indexAccOf files readF).texts.length)

theorem natDigitsRec_congr :
    ∀ f₁ f₂ n, n < f₁ → n < f₂ → natDigitsRec f₁ n = natDigitsRec f₂ n := by
  intro f₁
  induction f₁ with
  | zero => intro f₂ n h₁ _; omega
  | succ f ih =>
    intro f₂ n h₁ h₂
    obtain ⟨f', rfl⟩ : ∃ f', f₂ = f' + 1 := ⟨f₂ - 1, by omega⟩
    by_cases hn : n < 10
    · simp [natDigitsRec, hn]
    · have hd : n / 10 < n := Nat.div_lt_self (by omega) (by omega)
      simp only [natDigitsRec, if_neg hn]
      rw [ih f' (n / 10) (by omega) (by omega)]

theorem natDigitsRec_succ (fuel n : Nat) :
    natDigitsRec (fuel + 1) n = if n < 10 then [digitChar n]
      else natDigitsRec fuel (n / 10) ++ [digitChar (n % 10)] := rfl

theorem natDigits_eq (n : Nat) :
    natDigits n = if n < 10 then [digitChar n]
      else natDigits (n / 10) ++ [digitChar (n % 10)] := by
  rw [natDigits, natDigitsRec_succ]
  by_cases hn : n < 10
  · rw [if_pos hn, if_pos hn]
  · have hd : n / 10 < n := Nat.div_lt_self (by omega) (by omega)
    rw [if_neg hn, if_neg hn,
      natDigitsRec_congr n (n / 10 + 1) (n / 10) (by omega) (by omega)]
    rfl

theorem natDigits_ne_nil (n : Nat) : natDigits n ≠ [] := by
  rw [natDigits_eq]
  split
  · exact List.cons_ne_nil _ _
  · exact List.append_ne_nil_of_right_ne_nil _ (List.cons_ne_nil _ _)

theorem digitChar_small_inj :
    ∀ a, a < 10 → ∀ b, b < 10 → digitChar a = digitChar b → a = b := by decide

theorem digitChar_small_ne_dash : ∀ a, a < 10 → digitChar a ≠ '-' := by decide

theorem natDigits_ne_dash (n : Nat) : ∀ c ∈ natDigits n, c ≠ '-' := by
  induction n using Nat.strong_induction_on with
  | _ n ih =>
    intro c hc
    rw [natDigits_eq] at hc
    by_cases hn : n < 10
    · rw [if_pos hn, List.mem_singleton] at hc
      exact hc ▸ digitChar_small_ne_dash n hn
    · rw [if_neg hn] at hc
      rcases List.mem_append.1 hc with hc | hc
      · exact ih (n / 10) (Nat.div_lt_self (by omega) (by omega)) c hc
      · rw [List.mem_singleton] at hc
        exact hc ▸ digitChar_small_ne_dash (n % 10) (Nat.mod_lt n (by omega))

theorem natDigits_inj : ∀ m n, natDigits m = natDigits n → m = n := by
  intro m
  induction m using Nat.strong_induction_on with
  | _ m ih =>
    intro n h
    rw [natDigits_eq m, natDigits_eq n] at h
    by_cases hm : m < 10 <;> by_cases hn : n < 10
    · rw [if_pos hm, if_pos hn, List.cons.injEq] at h
      exact digitChar_small_inj m hm n hn h.1
    · rw [if_pos hm, if_neg hn] at h
      have := congrArg List.length h
      rcases hnil : natDigits (n / 10) with _ | _
      · exact absurd hnil (natDigits_ne_nil _)
      · rw [hnil] at this; simp at this
    · rw [if_neg hm, if_pos hn] at h
      have := congrArg List.length h
      rcases hnil : natDigits (m / 10) with _ | _
      · exact absurd hnil (natDigits_ne_nil _)
      · rw [hnil] at this; simp at this
    · rw [if_neg hm, if_neg hn] at h
      obtain ⟨h₁, h₂⟩ := List.append_inj' h (by simp)
      have h₂' : digitChar (m % 10) = digitChar (n % 10) := by injection h₂
      have hdiv := ih (m / 10) (Nat.div_lt_self (by omega) (by omega)) (n / 10) h₁
      have hmod := digitChar_small_inj (m % 10) (Nat.mod_lt m (by omega)) (n % 10)
        (Nat.mod_lt n (by omega)) h₂'
      omega

theorem takeWhile_all_sat (p : Char → Bool) :
    ∀ (xs : List Char) (y : Char) (ys : List Char),
      (∀ x ∈ xs, p x = true) → p y = false →
      List.takeWhile p (xs ++ y :: ys) = xs := by
  intro xs
  induction xs with
  | nil =>
    intro y ys _ hy
    simp [List.takeWhile_cons, hy]
  | cons x xs ih =>
    intro y ys hall hy
    rw [List.cons_append, List.takeWhile_cons, hall x (List.mem_cons_self x xs),
      if_pos rfl, ih y ys (fun z hz => hall z (List.mem_cons_of_mem x hz)) hy]

/-- Splitting an id of the shape `b ++ "-" ++ d` at the last dash is
unambiguous when `d` contains no dash. -/
theorem id_parts_inj (b₁ b₂ d₁ d₂ : List Char)
    (h₁ : ∀ c ∈ d₁, c ≠ '-') (h₂ : ∀ c ∈ d₂, c ≠ '-')
    (h : b₁ ++ '-' :: d₁ = b₂ ++ '-' :: d₂) : b₁ = b₂ ∧ d₁ = d₂ := by
  have hr := congrArg List.reverse h
  rw [List.reverse_append, List.reverse_cons, List.reverse_append,
    List.reverse_cons, List.append_assoc, List.append_assoc,
    List.singleton_append, List.singleton_append] at hr
  have ht := congrArg (List.takeWhile (fun c => c != '-')) hr
  have hta : List.takeWhile (fun c => c != '-') (d₁.reverse ++ '-' :: b₁.reverse)
      = d₁.reverse :=
    takeWhile_all_sat _ _ _ _
      (fun x hx => by
        simpa using h₁ x (List.mem_reverse.1 hx)) (by simp)
  have htb : List.takeWhile (fun c => c != '-') (d₂.reverse ++ '-' :: b₂.reverse)
      = d₂.reverse :=
    takeWhile_all_sat _ _ _ _
      (fun x hx => by
        simpa using h₂ x (List.mem_reverse.1 hx)) (by simp)
  rw [hta, htb] at ht
  have hd : d₁ = d₂ := List.reverse_injective ht
  subst hd
  refine ⟨(List.append_inj' h (by rfl)).1, rfl⟩

theorem chunkId_inj (f₁ f₂ : List Char) (j₁ j₂ : Nat)
    (h : chunkId f₁ j₁ = chunkId f₂ j₂) : basename f₁ = basename f₂ ∧ j₁ = j₂ := by
  obtain ⟨hb, hd⟩ := id_parts_inj (basename f₁) (basename f₂) (natDigits j₁)
    (natDigits j₂) (natDigits_ne_dash j₁) (natDigits_ne_dash j₂) h
  exact ⟨hb, natDigits_inj j₁ j₂ hd⟩

theorem perFile_ids_pairwise (f : List Char) (l : List (List Char)) :
    (l.enum.map (fun e => chunkId f e.1)).Pairwise (· ≠ ·) := by
  have hmap : l.enum.map (fun e => chunkId f e.1)
      = (l.enum.map Prod.fst).map (chunkId f) := by
    rw [List.map_map]; rfl
  rw [hmap, List.enum_map_fst]
  refine List.Pairwise.map (chunkId f) ?_ (List.pairwise_lt_range l.length)
  intro a b hab heq
  exact absurd (chunkId_inj f f a b heq).2 (by omega)

theorem mem_ids_indexAccOf :
    ∀ (files : List (List Char)) readF x, x ∈ (indexAccOf files readF).ids →
      ∃ f ∈ files, ∃ j, x = chunkId f j := by
  intro files
  induction files with
  | nil => intro readF x hx; simp [indexAccOf] at hx
  | cons f fs ih =>
    intro readF x hx
    rw [indexAccOf] at hx
    rcases hread : readF f with e | raw
    · rw [hread] at hx
      obtain ⟨g, hg, j, rfl⟩ := ih readF x hx
      exact ⟨g, List.mem_cons_of_mem f hg, j, rfl⟩
    · rw [hread] at hx
      rcases List.mem_append.1 hx with hx | hx
      · obtain ⟨e, _, rfl⟩ := List.mem_map.1 hx
        exact ⟨f, List.mem_cons_self f fs, e.1, rfl⟩
      · obtain ⟨g, hg, j, rfl⟩ := ih readF x hx
        exact ⟨g, List.mem_cons_of_mem f hg, j, rfl⟩

/-- Counterexample to C4 as stated: two input paths with the same basename
(`a/f.txt` and `b/f.txt`) yield the colliding ids `f.txt-0` and `f.txt-0`
in one bulk add. -/
theorem index_files_ids_counterexample :
    ¬ ((indexAccOf ["a/f.txt".data, "b/f.txt".data]
          (fun _ => Except.ok ['x'])).ids.Pairwise (· ≠ ·)) := by decide

/-- C4 (amended): the chunk ids accumulated by `index_files` are pairwise
distinct provided the input files have pairwise-distinct basenames (ids
from one file differ in the chunk index; ids from files with different
basenames differ before the final dash). -/
theorem index_files_ids_distinct (files : List (List Char))
    (readF : List Char → Except Unit (List Char))
    (hb : (files.map basename).Pairwise (· ≠ ·)) :
    (indexAccOf files readF).ids.Pairwise (· ≠ ·) := by
  induction files with
  | nil => simp [indexAccOf]
  | cons f fs ih =>
    rw [List.map_cons, List.pairwise_cons] at hb
    obtain ⟨hhead, htail⟩ := hb
    rw [indexAccOf]
    rcases hread : readF f with e | raw
    · exact ih htail
    · rw [List.pairwise_append]
      refine ⟨perFile_ids_pairwise f (chunk_text raw), ih htail, ?_⟩
      intro a ha b hbmem heq
      obtain ⟨e, _, rfl⟩ := List.mem_map.1 ha
      obtain ⟨g, hg, j, rfl⟩ := mem_ids_indexAccOf fs readF b hbmem
      have := (chunkId_inj f g e.1 j heq).1
      exact hhead (basename g) (List.mem_map_of_mem basename hg) this

/-- Witness for C4 (amended) at a concrete input. -/
theorem index_files_ids_distinct_witness :
    (["a.txt".data, "b.txt".data].map basename).Pairwise (· ≠ ·)
      ∧ (indexAccOf ["a.txt".data, "b.txt".data]
            (fun _ => Except.ok ['x'])).ids.Pairwise (· ≠ ·) :=
  ⟨by decide, index_files_ids_distinct ["a.txt".data, "b.txt".data]
    (fun _ => Except.ok ['x']) (by decide)⟩

/-- C10: `index_files` returns the length of its input file list as the
first component (files skipped on read failure and files whose text chunks
to nothing still count), and the total number of accumulated chunks as the
second; in particular `(N > 0, 0)` is reachable, e.g. one whitespace-only
file. -/
theorem index_files_counts (files : List (List Char))
    (readF : List Char → Except Unit (List Char)) :
    (index_files files readF).1 = files.length
      ∧ (index_files files readF).2
          = (files.map (fun f => match readF f with
              | .ok raw => (chunk_text raw).length
              | .error _ => 0)).sum
      ∧ index_files [[' ']] (fun _ => Except.ok [' ']) = (1, 0) := by
  refine ⟨rfl, ?_, by decide⟩
  show (indexAccOf files readF).texts.length = _
  induction files with
  | nil => rfl
  | cons f fs ih =>
    rcases hread : readF f with e | raw
    · simp only [indexAccOf, hread, List.map_cons, List.sum_cons, ih,
        Nat.zero_add]
    · simp only [indexAccOf, hread, List.map_cons, List.sum_cons,
        List.length_append, List.length_map, List.enum_length, ih]


-- Retrieval and answer composition (claims C5, C6, C7).

/-- Metadata attached to a retrieved chunk; the `source` key may be absent
(the code reads it as `m.get` with key `source` and default `unknown`). -/
structure RMeta where
  src : Option (List Char)
deriving DecidableEq

/-- Result of a Chroma `collection.query` call: each field is a dict entry
that may be absent (read via `res.get(key, [[]])`) and, when present, holds
one inner list per query text. -/
structure QueryResult where
  documents : Option (List (List (List Char)))
  metadatas : Option (List (List RMeta))
deriving DecidableEq

/-- Function `retrieve` from `rag.py` lines 59-65: query the collection (the store is
the oracle `collQuery`) for `max(1, k)` nearest results, take the first
inner list of documents and of metadatas (Python `[0]` indexing, which
raises when the outer list is empty — the `.error` case), and zip them. -/
def retrieve (query : List Char) (k : Int)
    (collQuery : List (List Char) → Int → QueryResult) :
    Except Unit (List (List Char × RMeta)) :=
  match ((collQuery [query] (max 1 k)).documents.getD [[]]).head?,
        ((collQuery [query] (max 1 k)).metadatas.getD [[]]).head? with
  | some docs, some metas => .ok (docs.zip metas)
  | _, _ => .error ()

/-- Apostrophe character (several source strings contain one). -/
def apos : Char := Char.ofNat 39

/-- Constant `SYSTEM_PROMPT` from `rag.py` lines 42-47. -/
def SYSTEM_PROMPT : List Char :=
  ("You are a precise Partner Program assistant." ++
    " Answer ONLY using the provided context excerpts." ++
    " If the answer is not in the context, say: ").data ++
  [apos] ++ ("I don").data ++ [apos] ++
  ("t know based on the current documentation.").data ++ [apos] ++
  (" Be concise and use bullet points. Include a short ").data ++
  [apos] ++ ("Sources").data ++ [apos] ++ (" list with file names.").data

/-- Fallback returned when retrieval yields no context
(`rag.py` lines 88-89). -/
def noContextMsg : List Char :=
  ("I couldn").data ++ [apos] ++
  ("t retrieve any context. Please run `python ingest.py` after placing " ++
    "your documents under `data/docs/`, then try again.").data

/-- Fixed cause description returned when the generation call fails
(`rag.py` lines 107-108), up to the error label. -/
def llmFailCause : List Char :=
  ("LLM call failed. Check that Ollama is running and " ++
    "`OLLAMA_HOST`/`OLLAMA_MODEL` are set.\n\n").data

/-- Full failure message: the fixed cause, the `Error: ` label, and the
underlying error text. -/
def llmFailMsg (e : List Char) : List Char :=
  llmFailCause ++ ("Error: ").data ++ e

/-- The `m.get` lookup of the `source` key with default `unknown`, `rag.py` line 94. -/
def getSourceD (m : RMeta) : List Char := m.src.getD ("unknown").data

/-- The labelled context block, `rag.py` lines 93-95. -/
def ctxBlock (ctxPairs : List (List Char × RMeta)) : List Char :=
  ("\n\n---\n").data.intercalate
    (ctxPairs.map fun p => ("[From ").data ++ getSourceD p.2 ++ ("]:\n").data ++ p.1)

/-- String `user_prompt` from `rag.py` lines 97-101. -/
def userPrompt (query : List Char) (ctxPairs : List (List Char × RMeta)) : List Char :=
  ("Context excerpts:\n").data ++ ctxBlock ctxPairs ++ ("\n\n").data ++
  ("Question: ").data ++ query ++ ("\n\n").data ++
  ("Answer in bullets. Then add a ").data ++ [apos] ++ ("Sources").data ++
  [apos] ++ (" list with the file names only.").data

/-- String `full_prompt` from `rag.py` line 103. -/
def fullPrompt (query : List Char) (ctxPairs : List (List Char × RMeta)) : List Char :=
  SYSTEM_PROMPT ++ ("\n\n").data ++ userPrompt query ctxPairs ++ ("\n\nAnswer:").data

/-- Function `answer` from `rag.py` lines 82-108.  The generation oracle `gen` models
the whole `_ollama_generate` call (HTTP POST, `raise_for_status`, JSON
field extraction): `.error e` is any exception it raises, rendered as the
text `e`, and is the only thing the `try` block of the source catches.  A
retrieval error would propagate (it sits outside the `try`), hence the
`Except` result; totality of this function is the no-raise guarantee for
the generation path. -/
def answer (query : List Char) (top_k : Int)
    (collQuery : List (List Char) → Int → QueryResult)
    (gen : List Char → Except (List Char) (List Char)) : Except Unit (List Char) :=
  match retrieve query top_k collQuery with
  | .error e => .error e
  | .ok ctxPairs =>
    if ctxPairs.isEmpty then .ok noContextMsg
    else
      .ok (match gen (fullPrompt query ctxPairs) with
        | .ok r => r
        | .error e => llmFailMsg e)

/-- C7: `retrieve` asks the store for `max(1, k)` nearest results — its
result depends only on the answer of the store at `([query], max 1 k)` — and
when the store returns no results (empty first inner document list, as for
an empty collection) it returns the empty sequence, not an error. -/
theorem retrieve_clamps_and_handles_empty (query : List Char) (k : Int)
    (collQuery : List (List Char) → Int → QueryResult)
    (hd : ((collQuery [query] (max 1 k)).documents.getD [[]]).head? = some [])
    (hm : ((collQuery [query] (max 1 k)).metadatas.getD [[]]).head?.isSome = true) :
    retrieve query k collQuery = .ok []
      ∧ ∀ g, g [query] (max 1 k) = collQuery [query] (max 1 k) →
          retrieve query k g = retrieve query k collQuery := by
  obtain ⟨metas, hmet⟩ := Option.isSome_iff_exists.1 hm
  constructor
  · rw [retrieve, hd, hmet]
    rfl
  · intro g hg
    rw [retrieve, hg, retrieve]

/-- A generation double that always fails with the text `boom`. -/
def failGen : List Char → Except (List Char) (List Char) :=
  fun _ => .error "boom".data

/-- A store double whose collection is empty. -/
def emptyStore : List (List Char) → Int → QueryResult :=
  fun _ _ => ⟨some [[]], some [[]]⟩

/-- Witness for C7 at a concrete input. -/
theorem retrieve_clamps_and_handles_empty_witness :
    ((emptyStore ["q".data] (max 1 4)).documents.getD [[]]).head? = some []
      ∧ ((emptyStore ["q".data] (max 1 4)).metadatas.getD [[]]).head?.isSome = true
      ∧ (retrieve "q".data 4 emptyStore = .ok []
          ∧ ∀ g, g ["q".data] (max 1 4) = emptyStore ["q".data] (max 1 4) →
              retrieve "q".data 4 g = retrieve "q".data 4 emptyStore) :=
  ⟨rfl, rfl, retrieve_clamps_and_handles_empty "q".data 4 emptyStore rfl rfl⟩

/-- C6: when retrieval returns the empty sequence, `answer` returns the
fixed fallback message instructing the user to ingest documents first, and
its result does not depend on the generation oracle at all — no generation
call is consulted. -/
theorem answer_empty_retrieval (query : List Char) (top_k : Int)
    (collQuery : List (List Char) → Int → QueryResult)
    (hr : retrieve query top_k collQuery = .ok []) :
    ∀ gen, answer query top_k collQuery gen = .ok noContextMsg := by
  intro gen
  rw [answer, hr]
  rfl

/-- Witness for C6 at a concrete input. -/
theorem answer_empty_retrieval_witness :
    retrieve "q".data 4 emptyStore = .ok []
      ∧ answer "q".data 4 emptyStore (fun _ => .ok []) = .ok noContextMsg :=
  ⟨rfl, answer_empty_retrieval "q".data 4 emptyStore rfl (fun _ => .ok [])⟩

/-- C5: whenever the generation call fails (the oracle raises with error
text `e`, covering network errors, timeouts and non-2xx statuses via
`raise_for_status`), `answer` does not propagate the exception: it returns
a string naming the likely cause and containing `Error: ` followed by the
underlying error text. -/
theorem answer_gen_failure (query : List Char) (top_k : Int)
    (collQuery : List (List Char) → Int → QueryResult)
    (gen : List Char → Except (List Char) (List Char))
    (ctxPairs : List (List Char × RMeta)) (e : List Char)
    (hr : retrieve query top_k collQuery = .ok ctxPairs)
    (hne : ctxPairs ≠ [])
    (hg : ∀ p, gen p = .error e) :
    answer query top_k collQuery gen
      = .ok (llmFailCause ++ ("Error: ").data ++ e) := by
  have hie : ctxPairs.isEmpty = false := by
    rw [Bool.eq_false_iff]
    intro h
    exact hne (List.isEmpty_iff.1 h)
  rw [answer, hr]
  simp only [hie, Bool.false_eq_true, if_false, hg (fullPrompt query ctxPairs)]
  rfl

/-- A store double holding a single document. -/
def oneDocStore : List (List Char) → Int → QueryResult :=
  fun _ _ => ⟨some [["d".data]], some [[⟨some "s".data⟩]]⟩

/-- Witness for C5 at a concrete input. -/
theorem answer_gen_failure_witness :
    retrieve "q".data 4 oneDocStore = .ok [("d".data, ⟨some "s".data⟩)]
      ∧ ([("d".data, (⟨some "s".data⟩ : RMeta))] : List (List Char × RMeta)) ≠ []
      ∧ (∀ p, failGen p = .error "boom".data)
      ∧ answer "q".data 4 oneDocStore failGen
          = .ok (llmFailCause ++ ("Error: ").data ++ "boom".data) :=
  ⟨rfl, by simp, fun _ => rfl,
    answer_gen_failure "q".data 4 oneDocStore failGen
      [("d".data, ⟨some "s".data⟩)] "boom".data rfl (by simp) (fun _ => rfl)⟩

end Rag
